import Mathlib

/-!
# Meal-planning engine: shallow embedding and verification

Embedding of the planning/aggregation engine of the meal-planning PWA:
the shopping-list aggregator `mergeShoppingList` (src/services/mockData.ts),
the recipe-versioning updates `handleUpdateRecipeA` / `handleUpdateRecipeB`
(the two App variants in src/unnamed/part_000), the version resolver embedded
in the aggregator, and the plan generator's per-date recipe selection
(src/unnamed/part_000, handleGeneratePlan).

Modelling conventions:
* JS numbers are modelled as rationals (ℚ); version counters as ℕ.
* Optional fields become `Option`; JS falsiness of `0` is modelled explicitly.
* ISO date strings (compared lexicographically and subtracted via `Date`
  arithmetic in the source) are modelled as integer day numbers, which have
  the same order and the same day differences.
* The wall-clock/random id source `Date.now() + Math.random()` is modelled as
  an oracle parameter `fresh : String → ℚ` giving the id used the first time
  a map key is created.
* The staple test builds `new RegExp("\\b" + escaped + "\\b", "i")` where
  `escaped` escapes every regex metacharacter, so the staple is matched as a
  literal; the `i` flag is modelled by case-folding both strings (ASCII
  word-boundary classification is unchanged by case folding).
-/

namespace MealPlan

/-! ## Data model (src/types.ts) -/

structure Ingredient where
  item_name : String
  quantity : ℚ
  unit : String
  category : String
deriving DecidableEq, Repr

/-- `Recipe` from src/types.ts; `history?: Recipe[]` holds full recipe values,
so the type is recursive (absent history is modelled as `[]`, matching the
source's `recipe.history || []` / `recipe.history?.find` readings). -/
structure Recipe where
  id : ℕ
  title : String
  description : String
  instructions : List String
  ingredients : List Ingredient
  servings_default : ℚ
  rating : Option ℚ
  version : ℕ
  history : List Recipe

structure MealPlanItem where
  id : ℕ
  date : ℤ
  recipe_id : ℕ
  recipe_version : Option ℕ
  servings : Option ℚ
  rating : Option ℚ
  is_cooked : Bool
deriving DecidableEq, Repr

structure ShoppingItem where
  id : ℚ
  item_name : String
  quantity : ℚ
  unit : String
  category : String
  checked : Bool
  is_manually_added : Bool
deriving DecidableEq, Repr

/-! ## JS falsiness helpers -/

/-- `a || b` for an optional JS number `a`: `undefined` and `0` fall through. -/
def jsOrQ (o : Option ℚ) (d : ℚ) : ℚ :=
  match o with
  | none => d
  | some x => if x = 0 then d else x

/-- `a || b` for an optional JS int. -/
def jsOrNat (n : ℕ) (d : ℕ) : ℕ := if n = 0 then d else n

/-- Truthiness of an optional JS number. -/
def jsTruthyQ (o : Option ℚ) : Bool :=
  match o with
  | none => false
  | some x => decide (x ≠ 0)

/-! ## Staple matching (src/services/mockData.ts lines 172-180)

The source escapes the staple (making it a regex literal) and tests
`\bstaple\b` case-insensitively against the ingredient name.  `\b` holds
between positions exactly when the word-character status changes
(positions outside the string count as non-word). -/

def isWordChar (c : Char) : Bool := c.isAlphanum || c = '_'

/-- Case-folded character list of a string (models the `i` regex flag). -/
def foldCase (s : String) : List Char := s.data.map Char.toLower

/-- Word-character status at position `i`, out-of-range counting as non-word. -/
def wordCharAt (l : List Char) (i : ℕ) : Bool := isWordChar (l.getD i ' ')

/-- `\b` at position `j` of `l` (`0 ≤ j ≤ l.length`). -/
def boundaryAt (l : List Char) (j : ℕ) : Bool :=
  (if j = 0 then false else wordCharAt l (j - 1)) != wordCharAt l j

/-- The literal `pat` matches at position `i` of `name` with `\b` on both
sides (both lists already case-folded). -/
def matchesAt (name pat : List Char) (i : ℕ) : Bool :=
  decide ((name.drop i).take pat.length = pat)
    && boundaryAt name i && boundaryAt name (i + pat.length)

/-- `new RegExp("\\b" + escaped + "\\b", "i").test(name)`. -/
def wholeWordMatch (staple name : String) : Bool :=
  let n := foldCase name
  let p := foldCase staple
  (List.range (n.length + 1)).any (fun i => matchesAt n p i)

/-- `pantryStaples.some(staple => ... .test(ing.item_name))`; the `try/catch`
in the source is unreachable because escaping makes every pattern valid, so
the test is a total boolean function. -/
def isStaple (staples : List String) (name : String) : Bool :=
  staples.any (fun s => wholeWordMatch s name)

/-! ## Aggregation keys and previous-list lookup -/

/-- `s.toLowerCase()` (character-wise ASCII case folding). -/
def lowerStr (s : String) : String := String.mk (s.data.map Char.toLower)

/-- `` `${name.toLowerCase()}-${unit.toLowerCase()}` ``. -/
def itemKey (name unit : String) : String := lowerStr name ++ "-" ++ lowerStr unit

def keyOf (it : ShoppingItem) : String := itemKey it.item_name it.unit

def ingKey (ing : Ingredient) : String := itemKey ing.item_name ing.unit

/-- `statusMap.get(key) || false`: the status map is filled by a forEach over
the whole previous list, later `set`s overwriting earlier ones, so the lookup
returns the checked flag of the last item with the key. -/
def statusOf (l : List ShoppingItem) (k : String) : Bool :=
  match l.reverse.find? (fun it => keyOf it == k) with
  | some it => it.checked
  | none => false

/-- `idMap.get(key)`: ids are recorded only for non-manual items. -/
def idOf (l : List ShoppingItem) (k : String) : Option ℚ :=
  (l.reverse.find? (fun it => !it.is_manually_added && keyOf it == k)).map (fun it => it.id)

/-- `existingId || (Date.now() + Math.random())` with the random source
modelled by `fresh`. -/
def resolveId (l : List ShoppingItem) (fresh : String → ℚ) (k : String) : ℚ :=
  match idOf l k with
  | some i => if i = 0 then fresh k else i
  | none => fresh k

/-! ## Version resolver (src/services/mockData.ts lines 162-166) -/

/-- `let targetRecipe = recipe; if (meal.recipe_version && meal.recipe_version
!== recipe.version) { const historical = recipe.history?.find(h => h.version
=== meal.recipe_version); if (historical) targetRecipe = historical; }`. -/
def resolveTarget (recipe : Recipe) (v : Option ℕ) : Recipe :=
  match v with
  | none => recipe
  | some n =>
    if n ≠ 0 ∧ n ≠ recipe.version then
      match recipe.history.find? (fun h => h.version == n) with
      | some hist => hist
      | none => recipe
    else recipe

/-! ## Shopping aggregator (src/services/mockData.ts lines 130-210) -/

/-- The fresh map entry created when a key is first seen: `{...ing, quantity,
id: existingId || fresh, checked: statusMap.get(key) || false,
is_manually_added: false}`. -/
def newRow (prev : List ShoppingItem) (fresh : String → ℚ)
    (ing : Ingredient) (q : ℚ) : ShoppingItem :=
  { id := resolveId prev fresh (ingKey ing)
    item_name := ing.item_name
    quantity := q
    unit := ing.unit
    category := ing.category
    checked := statusOf prev (ingKey ing)
    is_manually_added := false }

/-- One accumulation step of the generated map: add `q` to the existing entry
with the ingredient's key, or append a new entry seeded from the previous
list's status/id maps.  JS `Map` is insertion-ordered and `set` on an
existing key keeps its position, hence the in-place `map` update. -/
def addRow (prev : List ShoppingItem) (fresh : String → ℚ)
    (acc : List ShoppingItem) (ing : Ingredient) (q : ℚ) : List ShoppingItem :=
  if acc.any (fun it => keyOf it == ingKey ing) then
    acc.map (fun it =>
      if keyOf it == ingKey ing then { it with quantity := it.quantity + q } else it)
  else
    acc ++ [newRow prev fresh ing q]

/-- The body of `plan.forEach(meal => ...)`: resolve the recipe and pinned
version, compute the scale, and accumulate every non-staple ingredient. -/
def processMeal (prev : List ShoppingItem) (recipes : List Recipe)
    (staples : List String) (fresh : String → ℚ)
    (acc : List ShoppingItem) (meal : MealPlanItem) : List ShoppingItem :=
  match recipes.find? (fun r => r.id == meal.recipe_id) with
  | none => acc
  | some recipe =>
    let target := resolveTarget recipe meal.recipe_version
    let servings := jsOrQ meal.servings target.servings_default
    let scale := servings / target.servings_default
    target.ingredients.foldl
      (fun a ing =>
        if isStaple staples ing.item_name then a
        else addRow prev fresh a ing (ing.quantity * scale))
      acc

/-- The generated entries, in insertion order (`Array.from(generatedMap.values())`). -/
def generatedPart (currentList : List ShoppingItem) (plan : List MealPlanItem)
    (recipes : List Recipe) (pantryStaples : List String)
    (fresh : String → ℚ) : List ShoppingItem :=
  plan.foldl (processMeal currentList recipes pantryStaples fresh) []

/-- `mergeShoppingList` from src/services/mockData.ts. -/
def mergeShoppingList (currentList : List ShoppingItem) (plan : List MealPlanItem)
    (recipes : List Recipe) (pantryStaples : List String)
    (fresh : String → ℚ) : List ShoppingItem :=
  let manualItems := currentList.filter (fun it => it.is_manually_added)
  manualItems ++ generatedPart currentList plan recipes pantryStaples fresh

/-! ## Recipe versioning (src/unnamed/part_000) -/

/-- Snapshot with the history field cleared (`history: []`). -/
def stripHistory (r : Recipe) : Recipe := { r with history := [] }

/-- `handleUpdateRecipe` of the first App variant (src/unnamed/part_000 lines
325-352): on a content change, bump the version and append the full pre-edit
recipe (`history: [...(original.history || []), original]`). -/
def handleUpdateRecipeA (original updated : Recipe) : Recipe :=
  if original.ingredients ≠ updated.ingredients ∨
      original.instructions ≠ updated.instructions then
    { updated with
        version := jsOrNat original.version 1 + 1
        history := original.history ++ [original] }
  else updated

/-- `handleUpdateRecipe` of the second App variant (src/unnamed/part_000 lines
821-858): on a content change, bump the version and prepend a history-stripped
snapshot (`history: [snapshot, ...(existing.history || [])]`). -/
def handleUpdateRecipeB (existing updated : Recipe) : Recipe :=
  if existing.ingredients ≠ updated.ingredients ∨
      existing.instructions ≠ updated.instructions then
    { updated with
        version := jsOrNat existing.version 1 + 1
        history := stripHistory existing :: existing.history }
  else updated

/-! ## Plan generator scoring (src/unnamed/part_000 lines 149-203) -/

/-- Score of one recipe for one candidate date against the working plan,
with the `Math.random() * 10` draw passed in as `jit`. -/
def scoreRecipe (newPlan : List MealPlanItem) (r : Recipe) (dateStr : ℤ)
    (jit : ℚ) : ℚ :=
  let hist := newPlan.filter (fun p => p.recipe_id == r.id && jsTruthyQ p.rating)
  let avgRating : ℚ :=
    if hist.length ≠ 0 then
      (hist.map (fun p => p.rating.getD 0)).sum / (hist.length : ℚ)
    else jsOrQ r.rating (7 / 2)
  let eaten : List ℤ :=
    (newPlan.filter (fun p => p.recipe_id == r.id && decide (p.date < dateStr))).map
      (fun p => p.date)
  let daysSince : ℤ :=
    match eaten.max? with
    | none => 100
    | some last => dateStr - last
  let base := avgRating * 10 + ((min daysSince 30 : ℤ) : ℚ) * 2
  let penalized :=
    if daysSince ≤ 1 then base - 10000
    else if daysSince ≤ 2 then base - 5000
    else if daysSince ≤ 5 then base - 2000
    else if daysSince ≤ 7 then base - 500
    else base
  penalized + jit

/-- `scoredRecipes.sort((a, b) => b.score - a.score)` is stable, so the head
after sorting is the first element whose score is maximal: keep the current
best unless a strictly greater score appears. -/
def selectBest (scored : List (ℕ × ℚ)) : Option ℕ :=
  match scored with
  | [] => none
  | x :: xs => some (xs.foldl (fun best y => if y.2 > best.2 then y else best) x).1

/-- Per-date selection step of `handleGeneratePlan`: score every recipe
(the jitter draw for the recipe at position `i` is `jit i`) and take the
best-scoring id. -/
def selectRecipe (recipes : List Recipe) (newPlan : List MealPlanItem)
    (dateStr : ℤ) (jit : ℕ → ℚ) : Option ℕ :=
  selectBest (recipes.enum.map (fun p => (p.2.id, scoreRecipe newPlan p.2 dateStr (jit p.1))))

/-! ## Specification-level descriptions used by the claims -/

/-- The (ingredient, scaled quantity) contributions of one plan item, i.e.
the sequence of `addRow` calls it performs. -/
def mealContribs (recipes : List Recipe) (staples : List String)
    (meal : MealPlanItem) : List (Ingredient × ℚ) :=
  match recipes.find? (fun r => r.id == meal.recipe_id) with
  | none => []
  | some recipe =>
    let target := resolveTarget recipe meal.recipe_version
    let scale := jsOrQ meal.servings target.servings_default / target.servings_default
    (target.ingredients.filter (fun ing => !isStaple staples ing.item_name)).map
      (fun ing => (ing, ing.quantity * scale))

/-- All contributions of a plan, in processing order. -/
def planContribs (recipes : List Recipe) (staples : List String)
    (plan : List MealPlanItem) : List (Ingredient × ℚ) :=
  plan.flatMap (mealContribs recipes staples)

/-- Total contributed quantity at one map key. -/
def contribSum (cs : List (Ingredient × ℚ)) (k : String) : ℚ :=
  ((cs.filter (fun p => ingKey p.1 == k)).map (fun p => p.2)).sum

/-- Sum over all plan items of the quantities contributed at map key `k`. -/
def keySum (recipes : List Recipe) (staples : List String)
    (plan : List MealPlanItem) (k : String) : ℚ :=
  contribSum (planContribs recipes staples plan) k

/-- Sum over all plan items of the quantities contributed by ingredients
matching the (item_name, unit) pair case-insensitively — the key as the spec
words it, as a pair rather than the implementation's concatenated string. -/
def pairSum (recipes : List Recipe) (staples : List String)
    (plan : List MealPlanItem) (name unit : String) : ℚ :=
  ((( planContribs recipes staples plan).filter
      (fun p => lowerStr p.1.item_name == lowerStr name
        && lowerStr p.1.unit == lowerStr unit)).map
    (fun p => p.2)).sum

/-- Modelled from the spec (§4.2): content resolution as the spec words it —
current content when the pin equals the current version, else the history
entry with the pinned version when present, else the current content. -/
def specResolve (recipe : Recipe) (v : ℕ) : Recipe :=
  if v = recipe.version then recipe
  else
    match recipe.history.find? (fun h => h.version == v) with
    | some e => e
    | none => recipe

/-! ## Lemmas about the accumulation step `addRow` -/

/-- Quantity stored in the generated map at key `k` (`0` when absent). -/
def optQ (l : List ShoppingItem) (k : String) : ℚ :=
  match l.find? (fun it => keyOf it == k) with
  | some it => it.quantity
  | none => 0

theorem keyOf_update (it : ShoppingItem) (q : ℚ) :
    keyOf { it with quantity := q } = keyOf it := rfl

theorem keyOf_newRow (prev : List ShoppingItem) (fresh : String → ℚ)
    (ing : Ingredient) (q : ℚ) : keyOf (newRow prev fresh ing q) = ingKey ing := rfl

/-- The key-respecting update inside `addRow` does not change any key, so the
key-membership predicate is unchanged by it. -/
theorem comp_update_key (ing : Ingredient) (q : ℚ) (k : String) :
    ((fun it => keyOf it == k) ∘
      (fun it => if keyOf it == ingKey ing then
        { it with quantity := it.quantity + q } else it))
      = (fun it => keyOf it == k) := by
  funext it
  by_cases h : (keyOf it == ingKey ing) = true
  · rw [Function.comp_apply, if_pos h]
    exact rfl
  · rw [Function.comp_apply, if_neg h]


theorem addRow_optQ (prev : List ShoppingItem) (fresh : String → ℚ)
    (acc : List ShoppingItem) (ing : Ingredient) (q : ℚ) (k : String) :
    optQ (addRow prev fresh acc ing q) k
      = optQ acc k + (if ingKey ing = k then q else 0) := by
  unfold addRow optQ
  by_cases hany : (acc.any (fun it => keyOf it == ingKey ing)) = true
  · rw [if_pos hany, List.find?_map, comp_update_key]
    cases hf : acc.find? (fun it => keyOf it == k) with
    | none =>
      by_cases hk : ingKey ing = k
      · exfalso
        rcases List.any_eq_true.mp hany with ⟨a, ha, hpa⟩
        exact (List.find?_eq_none.mp hf a ha) (by rw [← hk]; exact hpa)
      · simp [hk]
    | some a =>
      have hka : keyOf a = k := by simpa using List.find?_some hf
      by_cases hk : ingKey ing = k
      · have hcond : (keyOf a == ingKey ing) = true := by simp [hka, hk]
        simp only [Option.map_some']
        rw [if_pos hcond]
        simp [hk]
      · have hcond : ¬ (keyOf a == ingKey ing) = true := by
          simp [hka]
          exact fun h => hk h.symm
        simp only [Option.map_some']
        rw [if_neg hcond]
        simp [hk]
  · rw [if_neg hany, List.find?_append]
    have hnone : acc.find? (fun it => keyOf it == ingKey ing) = none :=
      List.find?_eq_none.mpr (fun x hx hpx =>
        hany (List.any_eq_true.mpr ⟨x, hx, hpx⟩))
    by_cases hk : ingKey ing = k
    · have h1 : acc.find? (fun it => keyOf it == k) = none := by rw [← hk]; exact hnone
      have h2 : List.find? (fun it => keyOf it == k) [newRow prev fresh ing q]
          = some (newRow prev fresh ing q) := by
        have : (keyOf (newRow prev fresh ing q) == k) = true := by
          simp [keyOf_newRow, hk]
        simp [List.find?, this]
      rw [h1, h2]
      simp [newRow, hk]
    · have h2 : List.find? (fun it => keyOf it == k) [newRow prev fresh ing q] = none := by
        have : ¬ (keyOf (newRow prev fresh ing q) == k) = true := by
          simp [keyOf_newRow]
          exact hk
        simp [List.find?, this]
      rw [h2]
      cases hf : acc.find? (fun it => keyOf it == k) <;> simp [hk]

theorem keyOf_stepUpdate (ing : Ingredient) (q : ℚ) (it : ShoppingItem) :
    keyOf (if keyOf it == ingKey ing then { it with quantity := it.quantity + q } else it)
      = keyOf it := by
  by_cases h : (keyOf it == ingKey ing) = true
  · rw [if_pos h]
    exact rfl
  · rw [if_neg h]

/-- Each key occurs at most once among the generated entries. -/
def uniqueKeys (l : List ShoppingItem) : Prop :=
  l.Pairwise (fun a b => keyOf a ≠ keyOf b)

theorem addRow_uniqueKeys (prev : List ShoppingItem) (fresh : String → ℚ)
    (acc : List ShoppingItem) (ing : Ingredient) (q : ℚ) (h : uniqueKeys acc) :
    uniqueKeys (addRow prev fresh acc ing q) := by
  unfold addRow uniqueKeys
  by_cases hany : (acc.any (fun it => keyOf it == ingKey ing)) = true
  · rw [if_pos hany, List.pairwise_map]
    refine h.imp ?_
    intro a b hab
    rw [keyOf_stepUpdate, keyOf_stepUpdate]
    exact hab
  · rw [if_neg hany, List.pairwise_append]
    refine ⟨h, List.pairwise_singleton _ _, ?_⟩
    intro a ha b hb
    rcases List.mem_singleton.mp hb with rfl
    rw [keyOf_newRow]
    intro hcontra
    exact hany (List.any_eq_true.mpr ⟨a, ha, by simp [hcontra]⟩)

theorem foldl_addRow_uniqueKeys (prev : List ShoppingItem) (fresh : String → ℚ) :
    ∀ (cs : List (Ingredient × ℚ)) (acc : List ShoppingItem), uniqueKeys acc →
      uniqueKeys (cs.foldl (fun a p => addRow prev fresh a p.1 p.2) acc) := by
  intro cs
  induction cs with
  | nil => intro acc h; exact h
  | cons p tl ih =>
    intro acc h
    exact ih _ (addRow_uniqueKeys prev fresh acc p.1 p.2 h)

theorem contribSum_nil (k : String) : contribSum [] k = 0 := rfl

theorem contribSum_cons (p : Ingredient × ℚ) (cs : List (Ingredient × ℚ)) (k : String) :
    contribSum (p :: cs) k = (if ingKey p.1 = k then p.2 else 0) + contribSum cs k := by
  unfold contribSum
  rw [List.filter_cons]
  by_cases h : ingKey p.1 = k
  · rw [if_pos (by simp [h] : (ingKey p.1 == k) = true)]
    simp [h]
  · rw [if_neg (by simp [h] : ¬ (ingKey p.1 == k) = true)]
    simp [h]

theorem contribSum_append (cs ds : List (Ingredient × ℚ)) (k : String) :
    contribSum (cs ++ ds) k = contribSum cs k + contribSum ds k := by
  unfold contribSum
  rw [List.filter_append, List.map_append, List.sum_append]

theorem foldl_addRow_optQ (prev : List ShoppingItem) (fresh : String → ℚ) :
    ∀ (cs : List (Ingredient × ℚ)) (acc : List ShoppingItem) (k : String),
      optQ (cs.foldl (fun a p => addRow prev fresh a p.1 p.2) acc) k
        = optQ acc k + contribSum cs k := by
  intro cs
  induction cs with
  | nil => intro acc k; rw [contribSum_nil]; simp [List.foldl_nil]
  | cons p tl ih =>
    intro acc k
    rw [List.foldl_cons, ih, addRow_optQ, contribSum_cons]
    ring

/-- Every entry of the generated map is non-manual, and carries the checked
flag and id that the previous list's lookup maps give for its key. -/
def rowInv (prev : List ShoppingItem) (fresh : String → ℚ) (it : ShoppingItem) : Prop :=
  it.is_manually_added = false ∧ it.checked = statusOf prev (keyOf it) ∧
    it.id = resolveId prev fresh (keyOf it)

theorem addRow_rowInv (prev : List ShoppingItem) (fresh : String → ℚ)
    (acc : List ShoppingItem) (ing : Ingredient) (q : ℚ)
    (h : ∀ it ∈ acc, rowInv prev fresh it) :
    ∀ it ∈ addRow prev fresh acc ing q, rowInv prev fresh it := by
  unfold addRow
  by_cases hany : (acc.any (fun it => keyOf it == ingKey ing)) = true
  · rw [if_pos hany]
    intro it hit
    rcases List.mem_map.mp hit with ⟨a, ha, rfl⟩
    have hinv := h a ha
    by_cases hk : (keyOf a == ingKey ing) = true
    · rw [if_pos hk]
      exact hinv
    · rw [if_neg hk]
      exact hinv
  · rw [if_neg hany]
    intro it hit
    rcases List.mem_append.mp hit with h1 | h1
    · exact h it h1
    · rcases List.mem_singleton.mp h1 with rfl
      exact ⟨rfl, rfl, rfl⟩

theorem foldl_addRow_rowInv (prev : List ShoppingItem) (fresh : String → ℚ) :
    ∀ (cs : List (Ingredient × ℚ)) (acc : List ShoppingItem),
      (∀ it ∈ acc, rowInv prev fresh it) →
      ∀ it ∈ cs.foldl (fun a p => addRow prev fresh a p.1 p.2) acc, rowInv prev fresh it := by
  intro cs
  induction cs with
  | nil => intro acc h; exact h
  | cons p tl ih =>
    intro acc h
    exact ih _ (addRow_rowInv prev fresh acc p.1 p.2 h)

theorem addRow_namePred (p : String → Bool) (prev : List ShoppingItem)
    (fresh : String → ℚ) (acc : List ShoppingItem) (ing : Ingredient) (q : ℚ)
    (hacc : ∀ it ∈ acc, p it.item_name = false) (hing : p ing.item_name = false) :
    ∀ it ∈ addRow prev fresh acc ing q, p it.item_name = false := by
  unfold addRow
  by_cases hany : (acc.any (fun it => keyOf it == ingKey ing)) = true
  · rw [if_pos hany]
    intro it hit
    rcases List.mem_map.mp hit with ⟨a, ha, rfl⟩
    have hpa := hacc a ha
    by_cases hk : (keyOf a == ingKey ing) = true
    · rw [if_pos hk]
      exact hpa
    · rw [if_neg hk]
      exact hpa
  · rw [if_neg hany]
    intro it hit
    rcases List.mem_append.mp hit with h1 | h1
    · exact hacc it h1
    · rcases List.mem_singleton.mp h1 with rfl
      exact hing

theorem foldl_addRow_namePred (p : String → Bool) (prev : List ShoppingItem)
    (fresh : String → ℚ) :
    ∀ (cs : List (Ingredient × ℚ)) (acc : List ShoppingItem),
      (∀ it ∈ acc, p it.item_name = false) →
      (∀ c ∈ cs, p c.1.item_name = false) →
      ∀ it ∈ cs.foldl (fun a pr => addRow prev fresh a pr.1 pr.2) acc,
        p it.item_name = false := by
  intro cs
  induction cs with
  | nil => intro acc h _; exact h
  | cons c tl ih =>
    intro acc h hcs
    refine ih _ (addRow_namePred p prev fresh acc c.1 c.2 h ?_) ?_
    · exact hcs c (List.mem_cons_self _ _)
    · intro d hd
      exact hcs d (List.mem_cons_of_mem _ hd)

theorem addRow_exists_key (prev : List ShoppingItem) (fresh : String → ℚ)
    (acc : List ShoppingItem) (ing : Ingredient) (q : ℚ) (k : String) :
    (∃ it ∈ addRow prev fresh acc ing q, keyOf it = k) ↔
      (∃ it ∈ acc, keyOf it = k) ∨ ingKey ing = k := by
  unfold addRow
  by_cases hany : (acc.any (fun it => keyOf it == ingKey ing)) = true
  · rw [if_pos hany]
    constructor
    · rintro ⟨it, hit, hk⟩
      rcases List.mem_map.mp hit with ⟨a, ha, rfl⟩
      rw [keyOf_stepUpdate] at hk
      exact Or.inl ⟨a, ha, hk⟩
    · rintro (⟨a, ha, hk⟩ | hk)
      · exact ⟨_, List.mem_map_of_mem _ ha, by rw [keyOf_stepUpdate]; exact hk⟩
      · rcases List.any_eq_true.mp hany with ⟨a, ha, hpa⟩
        have hka : keyOf a = ingKey ing := by simpa using hpa
        exact ⟨_, List.mem_map_of_mem _ ha, by rw [keyOf_stepUpdate, hka]; exact hk⟩
  · rw [if_neg hany]
    constructor
    · rintro ⟨it, hit, hk⟩
      rcases List.mem_append.mp hit with h1 | h1
      · exact Or.inl ⟨it, h1, hk⟩
      · rcases List.mem_singleton.mp h1 with rfl
        rw [keyOf_newRow] at hk
        exact Or.inr hk
    · rintro (⟨a, ha, hk⟩ | hk)
      · exact ⟨a, List.mem_append_left _ ha, hk⟩
      · exact ⟨_, List.mem_append_right _ (List.mem_singleton_self _),
          by rw [keyOf_newRow]; exact hk⟩

theorem foldl_addRow_exists_key (prev : List ShoppingItem) (fresh : String → ℚ) :
    ∀ (cs : List (Ingredient × ℚ)) (acc : List ShoppingItem) (k : String),
      (∃ it ∈ cs.foldl (fun a p => addRow prev fresh a p.1 p.2) acc, keyOf it = k) ↔
        (∃ it ∈ acc, keyOf it = k) ∨ (∃ c ∈ cs, ingKey c.1 = k) := by
  intro cs
  induction cs with
  | nil => intro acc k; simp
  | cons p tl ih =>
    intro acc k
    rw [List.foldl_cons, ih, addRow_exists_key]
    constructor
    · rintro ((h | h) | h)
      · exact Or.inl h
      · exact Or.inr ⟨p, List.mem_cons_self _ _, h⟩
      · rcases h with ⟨c, hc, hck⟩
        exact Or.inr ⟨c, List.mem_cons_of_mem _ hc, hck⟩
    · rintro (h | ⟨c, hc, hck⟩)
      · exact Or.inl (Or.inl h)
      · rcases List.mem_cons.mp hc with rfl | hc
        · exact Or.inl (Or.inr hck)
        · exact Or.inr ⟨c, hc, hck⟩

/-! ## The generated part as a fold over the contribution stream -/

theorem foldl_filter_map_aux (prev : List ShoppingItem) (fresh : String → ℚ)
    (staples : List String) (scale : ℚ) :
    ∀ (ings : List Ingredient) (acc : List ShoppingItem),
      ings.foldl
        (fun a ing => if isStaple staples ing.item_name then a
          else addRow prev fresh a ing (ing.quantity * scale)) acc
      = ((ings.filter (fun ing => !isStaple staples ing.item_name)).map
          (fun ing => (ing, ing.quantity * scale))).foldl
          (fun a p => addRow prev fresh a p.1 p.2) acc := by
  intro ings
  induction ings with
  | nil => intro acc; rfl
  | cons ing tl ih =>
    intro acc
    by_cases h : isStaple staples ing.item_name = true
    · rw [List.foldl_cons, if_pos h, List.filter_cons,
        if_neg (by simp [h] : ¬ (!isStaple staples ing.item_name) = true)]
      exact ih acc
    · rw [List.foldl_cons, if_neg h, List.filter_cons,
        if_pos (by simp [Bool.not_eq_true] at h; simp [h] :
          (!isStaple staples ing.item_name) = true),
        List.map_cons, List.foldl_cons]
      exact ih _

theorem processMeal_eq (prev : List ShoppingItem) (recipes : List Recipe)
    (staples : List String) (fresh : String → ℚ)
    (acc : List ShoppingItem) (meal : MealPlanItem) :
    processMeal prev recipes staples fresh acc meal
      = (mealContribs recipes staples meal).foldl
          (fun a p => addRow prev fresh a p.1 p.2) acc := by
  unfold processMeal mealContribs
  cases hf : recipes.find? (fun r => r.id == meal.recipe_id) with
  | none => rfl
  | some recipe =>
    exact foldl_filter_map_aux prev fresh staples _ _ acc

theorem generatedPart_eq (L : List ShoppingItem) (P : List MealPlanItem)
    (R : List Recipe) (S : List String) (f : String → ℚ) :
    generatedPart L P R S f
      = (planContribs R S P).foldl (fun a p => addRow L f a p.1 p.2) [] := by
  unfold generatedPart
  have haux : ∀ (plan : List MealPlanItem) (acc : List ShoppingItem),
      plan.foldl (processMeal L R S f) acc
        = (planContribs R S plan).foldl (fun a p => addRow L f a p.1 p.2) acc := by
    intro plan
    induction plan with
    | nil => intro acc; rfl
    | cons m tl ih =>
      intro acc
      rw [List.foldl_cons, processMeal_eq]
      unfold planContribs
      rw [List.flatMap_cons, List.foldl_append]
      exact ih _
  exact haux P []

theorem find?_of_mem_uniqueKeys :
    ∀ (l : List ShoppingItem), uniqueKeys l → ∀ it ∈ l,
      l.find? (fun x => keyOf x == keyOf it) = some it := by
  intro l
  induction l with
  | nil => intro _ it hit; cases hit
  | cons a tl ih =>
    intro hu it hit
    rcases List.mem_cons.mp hit with rfl | hmem
    · exact List.find?_cons_of_pos _ (by simp)
    · have hne : keyOf a ≠ keyOf it := (List.pairwise_cons.mp hu).1 it hmem
      rw [List.find?_cons_of_neg _ (by simp [hne])]
      exact ih (List.pairwise_cons.mp hu).2 it hmem

theorem optQ_of_mem (l : List ShoppingItem) (hu : uniqueKeys l)
    (it : ShoppingItem) (hit : it ∈ l) : optQ l (keyOf it) = it.quantity := by
  unfold optQ
  rw [find?_of_mem_uniqueKeys l hu it hit]

theorem optQ_nil (k : String) : optQ [] k = 0 := rfl

/-- C1 (amended): for every generated line of the aggregate, its quantity is
the sum, over all plan items in scope, of `ingredient.quantity * scale` taken
over the non-staple ingredients of the item's resolved recipe content whose
implementation key (the concatenated string `lowercase name ++ "-" ++
lowercase unit`) equals the line's key. -/
theorem mergeShoppingList_conservation (L : List ShoppingItem)
    (P : List MealPlanItem) (R : List Recipe) (S : List String)
    (f : String → ℚ) (it : ShoppingItem)
    (hit : it ∈ mergeShoppingList L P R S f) (hgen : it.is_manually_added = false) :
    it.quantity = keySum R S P (keyOf it) := by
  have hsplit : it ∈ generatedPart L P R S f := by
    unfold mergeShoppingList at hit
    rcases List.mem_append.mp hit with h1 | h1
    · exfalso
      have hman := List.of_mem_filter h1
      rw [hgen] at hman
      cases hman
    · exact h1
  rw [generatedPart_eq] at hsplit
  have hu : uniqueKeys ((planContribs R S P).foldl (fun a p => addRow L f a p.1 p.2) []) :=
    foldl_addRow_uniqueKeys L f _ [] List.Pairwise.nil
  have hq := optQ_of_mem _ hu it hsplit
  have hfold := foldl_addRow_optQ L f (planContribs R S P) [] (keyOf it)
  rw [optQ_nil, zero_add] at hfold
  unfold keySum
  rw [← hq, hfold]

/-! Concrete data for the C1 counterexample: two distinct (name, unit) pairs
whose concatenated keys collide (`"a-b" / "c"` and `"a" / "b-c"` both key to
`"a-b-c"`). -/

def ingHyph1 : Ingredient := ⟨"a-b", 1, "c", "Misc"⟩

def ingHyph2 : Ingredient := ⟨"a", 1, "b-c", "Misc"⟩

def recipeHyph : Recipe :=
  ⟨1, "R", "", [], [ingHyph1, ingHyph2], 1, none, 1, []⟩

def mealHyph : MealPlanItem := ⟨1, 0, 1, some 1, some 1, none, false⟩

/-- C1 counterexample: the aggregate output holds the single line
`("a-b", "c")` with quantity 2, yet the sum of the contributions of the
ingredient with item_name "a-b" and unit "c" (as a pair, the key as the claim
words it) is only 1 — the quantity of the colliding pair ("a", "b-c") has
been merged in. -/
theorem pairKey_conservation_cex :
    (mergeShoppingList [] [mealHyph] [recipeHyph] [] (fun _ => 1)).map
      (fun it => (it.item_name, it.unit, it.quantity)) = [("a-b", "c", (2 : ℚ))] ∧
    pairSum [recipeHyph] [] [mealHyph] "a-b" "c" = 1 := by
  have hkeys : itemKey "a-b" "c" = itemKey "a" "b-c" := by decide
  constructor
  · norm_num [mergeShoppingList, generatedPart, processMeal, resolveTarget, jsOrQ,
      addRow, newRow, keyOf, ingKey, isStaple, statusOf, resolveId, idOf,
      ingHyph1, ingHyph2, recipeHyph, mealHyph, hkeys]
  · have hb1 : (lowerStr "a-b" == lowerStr "a-b" && lowerStr "c" == lowerStr "c")
        = true := by decide
    have hb2 : (lowerStr "a" == lowerStr "a-b" && lowerStr "b-c" == lowerStr "c")
        = false := by decide
    norm_num [pairSum, planContribs, mealContribs, resolveTarget, jsOrQ, isStaple,
      ingHyph1, ingHyph2, recipeHyph, mealHyph, hb1, hb2]

/-! Concrete data for Scenario A (spec §8): servings 8 against a default of
4 doubles the Chicken quantity, and the Salt ingredient is excluded. -/

def saltIng : Ingredient := ⟨"Salt", 1, "tsp", "Pantry"⟩

def chickenIng : Ingredient := ⟨"Chicken", 500, "g", "Meat"⟩

def recipeScA : Recipe :=
  ⟨1, "Chicken Dinner", "", [], [saltIng, chickenIng], 4, none, 1, []⟩

def mealScA : MealPlanItem := ⟨1, 0, 1, some 1, some 8, none, false⟩

def chickenRow : ShoppingItem := ⟨5, "Chicken", 1000, "g", "Meat", false, false⟩

/-- Scenario A evaluated: the merge yields exactly the doubled Chicken line. -/
theorem scenarioA_eval :
    mergeShoppingList [] [mealScA] [recipeScA] ["Salt"] (fun _ => 5) = [chickenRow] := by
  have hsalt : isStaple ["Salt"] "Salt" = true := by decide
  have hchicken : isStaple ["Salt"] "Chicken" = false := by decide
  norm_num [mergeShoppingList, generatedPart, processMeal, resolveTarget, jsOrQ,
    addRow, newRow, statusOf, resolveId, idOf, saltIng, chickenIng, recipeScA,
    mealScA, chickenRow, hsalt, hchicken]

/-- C1 witness: the conservation theorem applied to Scenario A's Chicken line. -/
theorem mergeShoppingList_conservation_witness :
    chickenRow ∈ mergeShoppingList [] [mealScA] [recipeScA] ["Salt"] (fun _ => 5) ∧
    chickenRow.is_manually_added = false ∧
    chickenRow.quantity = keySum [recipeScA] ["Salt"] [mealScA] (keyOf chickenRow) :=
  ⟨by rw [scenarioA_eval]; exact List.mem_singleton_self _, rfl,
    mergeShoppingList_conservation [] [mealScA] [recipeScA] ["Salt"] (fun _ => 5)
      chickenRow (by rw [scenarioA_eval]; exact List.mem_singleton_self _) rfl⟩

/-! ## C8: manual items are preserved verbatim and lead the output -/

/-- C8: the aggregate output is exactly the manually-added items of the input
list, verbatim and in their original relative order, followed by the newly
computed aggregate lines, all of which are non-manual; in particular every
manually-added input item appears unchanged in the output. -/
theorem manual_items_preserved (L : List ShoppingItem) (P : List MealPlanItem)
    (R : List Recipe) (S : List String) (f : String → ℚ) :
    mergeShoppingList L P R S f
      = L.filter (fun it => it.is_manually_added) ++ generatedPart L P R S f ∧
    (∀ it ∈ generatedPart L P R S f, it.is_manually_added = false) ∧
    (∀ it ∈ L, it.is_manually_added = true → it ∈ mergeShoppingList L P R S f) := by
  refine ⟨rfl, ?_, ?_⟩
  · intro it hit
    rw [generatedPart_eq] at hit
    exact (foldl_addRow_rowInv L f (planContribs R S P) []
      (fun x hx => absurd hx (List.not_mem_nil x)) it hit).1
  · intro it hit hman
    unfold mergeShoppingList
    exact List.mem_append_left _ (List.mem_filter.mpr ⟨hit, by rw [hman]⟩)

/-- C8 witness: a concrete manual item survives aggregation unchanged. -/
theorem manual_items_preserved_witness :
    (⟨9, "Paper Towels", 1, "pc", "Household", true, true⟩ : ShoppingItem)
      ∈ mergeShoppingList [⟨9, "Paper Towels", 1, "pc", "Household", true, true⟩]
          [] [] [] (fun _ => 3) :=
  (manual_items_preserved [⟨9, "Paper Towels", 1, "pc", "Household", true, true⟩]
      [] [] [] (fun _ => 3)).2.2
    ⟨9, "Paper Towels", 1, "pc", "Household", true, true⟩
    (List.mem_singleton_self _) rfl

/-! ## C6: total version resolution with graceful fallback -/

/-- C6: for every recipe whose history entries carry the (invariant) nonzero
versions, resolving a pinned version `v` never fails and returns the current
content when `v` equals the recipe's version, else the history entry whose
version equals `v` when one exists, else falls back to the current content —
exactly the spec-level `specResolve`. -/
theorem resolveTarget_total_spec (r : Recipe) (v : ℕ)
    (hh : ∀ e ∈ r.history, e.version ≠ 0) :
    resolveTarget r (some v) = specResolve r v := by
  have hres : resolveTarget r (some v)
      = if v ≠ 0 ∧ v ≠ r.version then
          (match r.history.find? (fun h => h.version == v) with
           | some hist => hist
           | none => r)
        else r := rfl
  rw [hres]
  unfold specResolve
  by_cases hv0 : v = 0
  · subst hv0
    rw [if_neg (fun h => h.1 rfl)]
    by_cases hvv : (0 : ℕ) = r.version
    · rw [if_pos hvv]
    · rw [if_neg hvv]
      have hnone : r.history.find? (fun h => h.version == 0) = none :=
        List.find?_eq_none.mpr (fun e he => by simpa using hh e he)
      rw [hnone]
  · by_cases hvv : v = r.version
    · rw [if_neg (fun h => h.2 hvv), if_pos hvv]
    · rw [if_pos (And.intro hv0 hvv), if_neg hvv]

/-! Concrete recipe with a two-entry history for resolver witnesses. -/

def histEntry1 : Recipe := ⟨7, "Stew", "", ["old"], [⟨"Beef", 300, "g", "Meat"⟩], 4, none, 1, []⟩

def histEntry2 : Recipe := ⟨7, "Stew", "", ["mid"], [⟨"Beef", 400, "g", "Meat"⟩], 4, none, 2, []⟩

def stewRecipe : Recipe :=
  ⟨7, "Stew", "", ["new"], [⟨"Beef", 500, "g", "Meat"⟩], 4, none, 3, [histEntry1, histEntry2]⟩

/-- C6 witness: resolution applied to a concrete recipe at a pinned historical
version. -/
theorem resolveTarget_total_spec_witness :
    resolveTarget stewRecipe (some 2) = specResolve stewRecipe 2 :=
  resolveTarget_total_spec stewRecipe 2 (by decide)

/-! ## C10: a servings value of 0 falls back to the recipe default -/

/-- C10: a plan item whose servings field is 0 is treated as if servings were
absent — the scale falls back to `servings_default / servings_default = 1`,
so the item still contributes its full per-default-serving quantities. -/
theorem servings_zero_full_contribution (recipes : List Recipe)
    (staples : List String) (meal : MealPlanItem) (recipe : Recipe)
    (hfind : recipes.find? (fun r => r.id == meal.recipe_id) = some recipe)
    (hs : meal.servings = some 0)
    (hd : (resolveTarget recipe meal.recipe_version).servings_default ≠ 0) :
    mealContribs recipes staples meal
      = mealContribs recipes staples { meal with servings := none } ∧
    ∀ p ∈ mealContribs recipes staples meal, p.2 = p.1.quantity := by
  have hseq : jsOrQ meal.servings (resolveTarget recipe meal.recipe_version).servings_default
      = jsOrQ (none : Option ℚ) (resolveTarget recipe meal.recipe_version).servings_default := by
    rw [hs]
    simp [jsOrQ]
  constructor
  · simp only [mealContribs, hfind]
    rw [hs]
    simp [jsOrQ]
  · intro p hp
    simp only [mealContribs, hfind] at hp
    rcases List.mem_map.mp hp with ⟨ing, _, rfl⟩
    have hscale : jsOrQ meal.servings (resolveTarget recipe meal.recipe_version).servings_default
        / (resolveTarget recipe meal.recipe_version).servings_default = 1 := by
      rw [hseq]
      show (resolveTarget recipe meal.recipe_version).servings_default
          / (resolveTarget recipe meal.recipe_version).servings_default = 1
      exact div_self hd
    show ing.quantity * (jsOrQ meal.servings
        (resolveTarget recipe meal.recipe_version).servings_default
        / (resolveTarget recipe meal.recipe_version).servings_default) = ing.quantity
    rw [hscale]
    exact mul_one _

/-- C10 witness: a concrete plan item with servings 0 contributes the full
per-default quantities. -/
theorem servings_zero_full_contribution_witness :
    (mealContribs [stewRecipe] [] ⟨4, 0, 7, some 3, some 0, none, false⟩
        = mealContribs [stewRecipe] [] ⟨4, 0, 7, none, (none : Option ℚ), none, false⟩) ∧
    ∀ p ∈ mealContribs [stewRecipe] [] ⟨4, 0, 7, some 3, some 0, none, false⟩,
      p.2 = p.1.quantity := by
  have h := servings_zero_full_contribution [stewRecipe] []
    ⟨4, 0, 7, some 3, some 0, none, false⟩ stewRecipe rfl rfl
    (by norm_num [resolveTarget, stewRecipe])
  exact ⟨h.1, h.2⟩

/-! ## C3 and C4: what the versioning updates actually do to history -/

def vIngX : Ingredient := ⟨"X", 1, "g", "Misc"⟩

def vIngY : Ingredient := ⟨"Y", 2, "g", "Misc"⟩

def vHist1 : Recipe := ⟨1, "R", "", ["i"], [vIngX], 4, none, 1, []⟩

def vExisting : Recipe := ⟨1, "R", "", ["i2"], [vIngX], 4, none, 2, [vHist1]⟩

/-- An ingredient-changing proposal. -/
def vProposedIng : Recipe := { vExisting with ingredients := [vIngY] }

/-- An instructions-only proposal (ingredients untouched). -/
def vProposedInstr : Recipe := { vExisting with instructions := ["i3"] }

/-- C3 counterexample: on an ingredient edit of a recipe with a one-entry
history, the update (second App variant, the one matching the spec's
`snapshot()` stripping) produces history versions `[2, 1]` — the stripped
snapshot of the pre-edit recipe is PREPENDED — whereas the claimed
`existing.history ++ [snapshot(existing)]` has versions `[1, 2]`; the two
lists are different. -/
theorem updateRecipe_history_append_cex :
    ((handleUpdateRecipeB vExisting vProposedIng).history.map
        (fun h => h.version) = [2, 1]) ∧
    ((vExisting.history ++ [stripHistory vExisting]).map
        (fun h => h.version) = [1, 2]) ∧
    (handleUpdateRecipeB vExisting vProposedIng).history
      ≠ vExisting.history ++ [stripHistory vExisting] := by
  refine ⟨by decide, by decide, ?_⟩
  intro h
  exact absurd (congrArg (List.map (fun r => Recipe.version r)) h) (by decide)

/-- C3 (amended): on a content-changing edit (pre-edit version nonzero), the
version is bumped by exactly one in both App variants; the second variant
prepends a history-stripped snapshot of the pre-edit recipe to the front of
the history, while the first variant appends the full pre-edit recipe —
nested history included — at the end. -/
theorem updateRecipe_versioning (existing updated : Recipe)
    (hv : existing.version ≠ 0)
    (hch : existing.ingredients ≠ updated.ingredients ∨
      existing.instructions ≠ updated.instructions) :
    (handleUpdateRecipeB existing updated).version = existing.version + 1 ∧
    (handleUpdateRecipeB existing updated).history
      = stripHistory existing :: existing.history ∧
    (stripHistory existing).history = [] ∧
    (handleUpdateRecipeA existing updated).version = existing.version + 1 ∧
    (handleUpdateRecipeA existing updated).history = existing.history ++ [existing] := by
  unfold handleUpdateRecipeA handleUpdateRecipeB
  rw [if_pos hch, if_pos hch]
  refine ⟨?_, rfl, rfl, ?_, rfl⟩ <;> simp [jsOrNat, hv]

/-- C3 witness: the amended statement applied to the concrete ingredient
edit. -/
theorem updateRecipe_versioning_witness :
    (handleUpdateRecipeB vExisting vProposedIng).version = vExisting.version + 1 ∧
    (handleUpdateRecipeB vExisting vProposedIng).history
      = stripHistory vExisting :: vExisting.history ∧
    (stripHistory vExisting).history = [] ∧
    (handleUpdateRecipeA vExisting vProposedIng).version = vExisting.version + 1 ∧
    (handleUpdateRecipeA vExisting vProposedIng).history
      = vExisting.history ++ [vExisting] :=
  updateRecipe_versioning vExisting vProposedIng (by decide) (Or.inl (by decide))

/-- C4 counterexample: editing only the instructions DOES bump the version
(2 becomes 3, not unchanged), and the history entry appended by an
ingredient edit is the full pre-edit recipe — its nested history (here of
length 1) is not stripped, so it differs from the claimed stripped
snapshot. -/
theorem instructions_only_version_cex :
    (handleUpdateRecipeA vExisting vProposedInstr).version = 3 ∧
    vExisting.version = 2 ∧
    (handleUpdateRecipeA vExisting vProposedIng).history
      ≠ vExisting.history ++ [stripHistory vExisting] := by
  refine ⟨by decide, by decide, ?_⟩
  intro h
  exact absurd (congrArg (List.map (fun r => r.history.length)) h) (by decide)

/-- C4 (amended): in the first App variant, an instructions-only edit also
increments the version by exactly one and appends exactly one history entry;
an ingredient edit increments the version by exactly one and appends exactly
one history entry, equal to the full pre-edit recipe (nested history
retained, not stripped). -/
theorem updateRecipeA_content_edit (existing updated : Recipe)
    (hv : existing.version ≠ 0) :
    (existing.instructions ≠ updated.instructions →
      (handleUpdateRecipeA existing updated).version = existing.version + 1 ∧
      (handleUpdateRecipeA existing updated).history
        = existing.history ++ [existing]) ∧
    (existing.ingredients ≠ updated.ingredients →
      (handleUpdateRecipeA existing updated).version = existing.version + 1 ∧
      (handleUpdateRecipeA existing updated).history
        = existing.history ++ [existing]) := by
  constructor
  · intro hi
    unfold handleUpdateRecipeA
    rw [if_pos (Or.inr hi)]
    exact ⟨by simp [jsOrNat, hv], rfl⟩
  · intro hi
    unfold handleUpdateRecipeA
    rw [if_pos (Or.inl hi)]
    exact ⟨by simp [jsOrNat, hv], rfl⟩

/-- C4 witness: the amended statement applied to the concrete
instructions-only and ingredient edits. -/
theorem updateRecipeA_content_edit_witness :
    ((handleUpdateRecipeA vExisting vProposedInstr).version = vExisting.version + 1 ∧
      (handleUpdateRecipeA vExisting vProposedInstr).history
        = vExisting.history ++ [vExisting]) ∧
    ((handleUpdateRecipeA vExisting vProposedIng).version = vExisting.version + 1 ∧
      (handleUpdateRecipeA vExisting vProposedIng).history
        = vExisting.history ++ [vExisting]) :=
  ⟨(updateRecipeA_content_edit vExisting vProposedInstr (by decide)).1 (by decide),
   (updateRecipeA_content_edit vExisting vProposedIng (by decide)).2 (by decide)⟩

/-! ## C2: version pinning shields a plan item's contribution from edits -/

theorem resolveTarget_some (r : Recipe) (v : ℕ) :
    resolveTarget r (some v)
      = if v ≠ 0 ∧ v ≠ r.version then
          (match r.history.find? (fun h => h.version == v) with
           | some hist => hist
           | none => r)
        else r := rfl

theorem handleUpdateRecipeB_id (existing updated : Recipe) :
    (handleUpdateRecipeB existing updated).id = updated.id := by
  unfold handleUpdateRecipeB
  split <;> rfl

/-- Replacing the (first-found) recipe in the catalog swaps what the
id-lookup returns, exactly as `recipes.map(r => r.id === saved.id ? saved : r)`
does after `recipes.find(r => r.id === updated.id)` succeeded. -/
theorem find?_map_replace (recipes : List Recipe) (uid : ℕ)
    (existing final : Recipe)
    (hf : recipes.find? (fun r => r.id == uid) = some existing)
    (hfin : final.id = uid) :
    (recipes.map (fun r => if r.id == uid then final else r)).find?
      (fun r => r.id == uid) = some final := by
  induction recipes with
  | nil => cases hf
  | cons a tl ih =>
    by_cases ha : (a.id == uid) = true
    · rw [List.map_cons, if_pos ha]
      exact List.find?_cons_of_pos _ (by simp [hfin])
    · have hskip : (a :: List.map (fun r => if r.id == uid then final else r) tl).find?
          (fun r => r.id == uid)
          = (List.map (fun r => if r.id == uid then final else r) tl).find?
              (fun r => r.id == uid) :=
        List.find?_cons_of_neg _ ha
      have hf' : tl.find? (fun r => r.id == uid) = some existing := by
        have hskip2 : (a :: tl).find? (fun r => r.id == uid)
            = tl.find? (fun r => r.id == uid) := List.find?_cons_of_neg _ ha
        rw [hskip2] at hf
        exact hf
      rw [List.map_cons, if_neg ha, hskip]
      exact ih hf'

/-- The recipe value written back by the second variant's versioning update
on a content change (pre-edit version nonzero). -/
def bumped (existing updated : Recipe) : Recipe :=
  { updated with
      version := existing.version + 1
      history := stripHistory existing :: existing.history }

/-- After a content-changing edit through the versioning update, resolving a
pinned version that the pre-edit recipe actually had (its current version or
one recorded in its history, histories carrying only strictly older
versions) yields the same ingredients and the same servings_default as
resolving against the pre-edit recipe. -/
theorem resolveTarget_after_update (existing updated : Recipe) (v : ℕ)
    (hv0 : 0 < v)
    (hhist : ∀ e ∈ existing.history, e.version < existing.version)
    (hvres : v = existing.version ∨ ∃ e ∈ existing.history, e.version = v)
    (hch : existing.ingredients ≠ updated.ingredients ∨
      existing.instructions ≠ updated.instructions) :
    (resolveTarget (handleUpdateRecipeB existing updated) (some v)).ingredients
      = (resolveTarget existing (some v)).ingredients ∧
    (resolveTarget (handleUpdateRecipeB existing updated) (some v)).servings_default
      = (resolveTarget existing (some v)).servings_default := by
  have hvle : v ≤ existing.version := by
    rcases hvres with hv | ⟨e, he, hev⟩
    · exact le_of_eq hv
    · exact le_of_lt (hev ▸ hhist e he)
  have hev0 : existing.version ≠ 0 := by omega
  have hF : handleUpdateRecipeB existing updated = bumped existing updated := by
    unfold handleUpdateRecipeB bumped
    rw [if_pos hch]
    simp [jsOrNat, hev0]
  rw [hF, resolveTarget_some, resolveTarget_some]
  have hbv : (bumped existing updated).version = existing.version + 1 := rfl
  have hcond : v ≠ 0 ∧ v ≠ (bumped existing updated).version := by
    refine ⟨by omega, ?_⟩
    rw [hbv]
    omega
  rw [if_pos hcond]
  rcases hvres with hveq | ⟨e, he, hev⟩
  · have hfound : (bumped existing updated).history.find? (fun h => h.version == v)
        = some (stripHistory existing) := by
      show (stripHistory existing :: existing.history).find? (fun h => h.version == v)
        = some (stripHistory existing)
      exact List.find?_cons_of_pos _ (by simp [stripHistory, hveq])
    rw [hfound, if_neg (fun hc => hc.2 hveq)]
    exact ⟨rfl, rfl⟩
  · have hvlt : v < existing.version := hev ▸ hhist e he
    have hstep : (bumped existing updated).history.find? (fun h => h.version == v)
        = existing.history.find? (fun h => h.version == v) := by
      show (stripHistory existing :: existing.history).find? (fun h => h.version == v)
        = existing.history.find? (fun h => h.version == v)
      refine List.find?_cons_of_neg _ ?_
      show ¬ ((stripHistory existing).version == v) = true
      simp [stripHistory]
      omega
    rw [hstep, if_pos ⟨by omega, by omega⟩]
    have hsome : ∃ x, existing.history.find? (fun h => h.version == v) = some x := by
      have hiss : (existing.history.find? (fun h => h.version == v)).isSome = true :=
        List.find?_isSome.mpr ⟨e, he, by simp [hev]⟩
      exact Option.isSome_iff_exists.mp hiss
    rcases hsome with ⟨x, hx⟩
    rw [hx]
    exact ⟨rfl, rfl⟩

/-- Two catalogs whose id-lookup for a meal return content-equivalent
recipes (same resolved ingredients and servings_default at the meal's pin)
give the meal the same contribution. -/
theorem mealContribs_eq_of (recipes₁ recipes₂ : List Recipe)
    (staples : List String) (meal : MealPlanItem) (r₁ r₂ : Recipe)
    (h₁ : recipes₁.find? (fun r => r.id == meal.recipe_id) = some r₁)
    (h₂ : recipes₂.find? (fun r => r.id == meal.recipe_id) = some r₂)
    (hing : (resolveTarget r₁ meal.recipe_version).ingredients
      = (resolveTarget r₂ meal.recipe_version).ingredients)
    (hsd : (resolveTarget r₁ meal.recipe_version).servings_default
      = (resolveTarget r₂ meal.recipe_version).servings_default) :
    mealContribs recipes₁ staples meal = mealContribs recipes₂ staples meal := by
  simp only [mealContribs, h₁, h₂]
  rw [hing, hsd]

/-- C2: a plan item pinned to a version the recipe actually had (its current
version, or one recorded in its history) contributes exactly the same
(ingredient, scaled-quantity) stream to the shopping aggregate after the
recipe's ingredients are edited through the versioning update as before. -/
theorem version_pinning_contribution (recipes : List Recipe)
    (existing updated : Recipe) (meal : MealPlanItem)
    (staples : List String) (v : ℕ)
    (hfind : recipes.find? (fun r => r.id == meal.recipe_id) = some existing)
    (hid : updated.id = meal.recipe_id)
    (hpin : meal.recipe_version = some v)
    (hv0 : 0 < v)
    (hhist : ∀ e ∈ existing.history, e.version < existing.version)
    (hvres : v = existing.version ∨ ∃ e ∈ existing.history, e.version = v)
    (hch : existing.ingredients ≠ updated.ingredients ∨
      existing.instructions ≠ updated.instructions) :
    mealContribs (recipes.map (fun r =>
        if r.id == (handleUpdateRecipeB existing updated).id then
          handleUpdateRecipeB existing updated else r)) staples meal
      = mealContribs recipes staples meal := by
  have hfid : (handleUpdateRecipeB existing updated).id = meal.recipe_id := by
    rw [handleUpdateRecipeB_id, hid]
  have hres := resolveTarget_after_update existing updated v hv0 hhist hvres hch
  refine mealContribs_eq_of _ _ staples meal
    (handleUpdateRecipeB existing updated) existing ?_ hfind ?_ ?_
  · rw [hfid]
    exact find?_map_replace recipes meal.recipe_id existing
      (handleUpdateRecipeB existing updated) hfind hfid
  · rw [hpin]
    exact hres.1
  · rw [hpin]
    exact hres.2

def vMeal : MealPlanItem := ⟨2, 0, 1, some 1, some 4, none, false⟩

/-- C2 witness: the pinning theorem applied to the concrete recipe, its
pinned-to-history plan item, and the concrete ingredient edit. -/
theorem version_pinning_contribution_witness :
    mealContribs ([vExisting].map (fun r =>
        if r.id == (handleUpdateRecipeB vExisting vProposedIng).id then
          handleUpdateRecipeB vExisting vProposedIng else r)) [] vMeal
      = mealContribs [vExisting] [] vMeal :=
  version_pinning_contribution [vExisting] vExisting vProposedIng vMeal [] 1
    rfl rfl rfl (by decide)
    (by
      intro e he
      rcases List.mem_singleton.mp he with rfl
      decide)
    (Or.inr ⟨vHist1, List.mem_singleton_self _, rfl⟩)
    (Or.inl (by decide))

/-! ## C7: staple exclusion, total and exact -/

/-- Staple matching looks only at the case-folded ingredient name (the `i`
flag), so names equal up to case match identically. -/
theorem isStaple_congr (S : List String) (n m : String)
    (h : foldCase n = foldCase m) : isStaple S n = isStaple S m := by
  unfold isStaple wholeWordMatch
  simp only [h]

/-- A non-manual output line always stems from the generated part. -/
theorem mem_generated_of_nonmanual (L : List ShoppingItem) (P : List MealPlanItem)
    (R : List Recipe) (S : List String) (f : String → ℚ) (it : ShoppingItem)
    (hit : it ∈ mergeShoppingList L P R S f) (h : it.is_manually_added = false) :
    it ∈ generatedPart L P R S f := by
  unfold mergeShoppingList at hit
  rcases List.mem_append.mp hit with h1 | h1
  · exfalso
    have hman := List.of_mem_filter h1
    rw [h] at hman
    cases hman
  · exact h1

/-- Every generated line carries the (non-staple) name of some contributing
ingredient. -/
theorem generated_nonstaple (L : List ShoppingItem) (P : List MealPlanItem)
    (R : List Recipe) (S : List String) (f : String → ℚ) :
    ∀ it ∈ generatedPart L P R S f, isStaple S it.item_name = false := by
  rw [generatedPart_eq]
  refine foldl_addRow_namePred (fun s => isStaple S s) L f (planContribs R S P) []
    (fun x hx => absurd hx (List.not_mem_nil x)) ?_
  intro c hc
  unfold planContribs at hc
  rcases List.mem_flatMap.mp hc with ⟨meal, hm, hcm⟩
  unfold mealContribs at hcm
  cases hf : R.find? (fun r => r.id == meal.recipe_id) with
  | none =>
    rw [hf] at hcm
    cases hcm
  | some recipe =>
    rw [hf] at hcm
    rcases List.mem_map.mp hcm with ⟨ing, hing, rfl⟩
    have hflt := List.of_mem_filter hing
    simpa using hflt

/-- C7: (a) whenever a name whole-word-matches a staple (the total, boolean
staple test — escaping makes every pattern a valid literal, so the regex
construction never throws), no generated line of the aggregate carries a name
equal to it up to case; (b) conversely a non-staple ingredient of any
in-scope plan item's resolved recipe always surfaces as a generated line
with its grouping key. -/
theorem staple_exclusion_iff (L : List ShoppingItem) (P : List MealPlanItem)
    (R : List Recipe) (S : List String) (f : String → ℚ) :
    (∀ name, isStaple S name = true →
      ∀ it ∈ mergeShoppingList L P R S f, it.is_manually_added = false →
        foldCase it.item_name ≠ foldCase name) ∧
    (∀ meal ∈ P, ∀ (recipe : Recipe) (ing : Ingredient),
      R.find? (fun r => r.id == meal.recipe_id) = some recipe →
      ing ∈ (resolveTarget recipe meal.recipe_version).ingredients →
      isStaple S ing.item_name = false →
      ∃ it ∈ mergeShoppingList L P R S f,
        it.is_manually_added = false ∧ keyOf it = ingKey ing) := by
  constructor
  · intro name hname it hit hman heq
    have hitgen := mem_generated_of_nonmanual L P R S f it hit hman
    have hns := generated_nonstaple L P R S f it hitgen
    rw [isStaple_congr S it.item_name name heq, hname] at hns
    cases hns
  · intro meal hm recipe ing hf hing hns
    have hc : (ing, ing.quantity *
        (jsOrQ meal.servings (resolveTarget recipe meal.recipe_version).servings_default
          / (resolveTarget recipe meal.recipe_version).servings_default))
        ∈ mealContribs R S meal := by
      unfold mealContribs
      rw [hf]
      exact List.mem_map_of_mem _ (List.mem_filter.mpr ⟨hing, by simp [hns]⟩)
    have hpc := List.mem_flatMap.mpr ⟨meal, hm, hc⟩
    have hex : ∃ it ∈ generatedPart L P R S f, keyOf it = ingKey ing := by
      rw [generatedPart_eq]
      exact (foldl_addRow_exists_key L f (planContribs R S P) [] (ingKey ing)).mpr
        (Or.inr ⟨_, hpc, rfl⟩)
    rcases hex with ⟨it, hitg, hk⟩
    refine ⟨it, List.mem_append_right _ hitg, ?_, hk⟩
    have hinv := foldl_addRow_rowInv L f (planContribs R S P) []
      (fun x hx => absurd hx (List.not_mem_nil x)) it
      (by rw [generatedPart_eq] at hitg; exact hitg)
    exact hinv.1

/-- C7 witness: in Scenario A, Chicken (non-staple) surfaces with its key and
its name never case-folds to the matched staple "Salt". -/
theorem staple_exclusion_iff_witness :
    foldCase chickenRow.item_name ≠ foldCase "Salt" ∧
    ∃ it ∈ mergeShoppingList [] [mealScA] [recipeScA] ["Salt"] (fun _ => 5),
      it.is_manually_added = false ∧ keyOf it = ingKey chickenIng :=
  ⟨(staple_exclusion_iff [] [mealScA] [recipeScA] ["Salt"] (fun _ => 5)).1
      "Salt" (by decide) chickenRow
      (by rw [scenarioA_eval]; exact List.mem_singleton_self _) rfl,
   (staple_exclusion_iff [] [mealScA] [recipeScA] ["Salt"] (fun _ => 5)).2
      mealScA (List.mem_singleton_self _) recipeScA chickenIng rfl
      (by decide) (by decide)⟩

/-! ## C9: Scenario B — recency beats an equally rated recent recipe -/

def recGenA : Recipe := ⟨1, "A", "", [], [], 4, some 5, 1, []⟩

def recGenB : Recipe := ⟨2, "B", "", [], [], 4, some 5, 1, []⟩

/-- The plan occurrence of recipe B, one day before the candidate date. -/
def occGenB (d : ℤ) : MealPlanItem := ⟨9, d - 1, 2, some 1, none, none, false⟩

/-- C9: with recipe A (rating 5, never eaten) and recipe B (rating 5, eaten
one day before the candidate date) in the catalog — in either order — the
selection step picks A for every candidate date and every pair of jitter
draws in [0, 10): B's score carries the 10000 penalty for recencyDays ≤ 1
while A scores with recencyDays 100, so A's score is strictly larger. -/
theorem scenarioB_selects_A (d : ℤ) (jit : ℕ → ℚ)
    (hjit : ∀ i, 0 ≤ jit i ∧ jit i < 10) :
    selectRecipe [recGenA, recGenB] [occGenB d] d jit = some 1 ∧
    selectRecipe [recGenB, recGenA] [occGenB d] d jit = some 1 := by
  have hdlt : (decide (d - 1 < d)) = true := by
    simp only [decide_eq_true_eq]
    omega
  have hA : ∀ j : ℚ, scoreRecipe [occGenB d] recGenA d j = 110 + j := by
    intro j
    norm_num [scoreRecipe, occGenB, recGenA, jsTruthyQ, jsOrQ]
  have hB : ∀ j : ℚ, scoreRecipe [occGenB d] recGenB d j = -9948 + j := by
    intro j
    norm_num [scoreRecipe, occGenB, recGenB, jsTruthyQ, jsOrQ, hdlt,
      List.max?_cons, List.max?_nil, sub_sub_cancel]
  constructor
  · have hnot : ¬ (scoreRecipe [occGenB d] recGenB d (jit 1)
        > scoreRecipe [occGenB d] recGenA d (jit 0)) := by
      rw [hA (jit 0), hB (jit 1)]
      have h0 := (hjit 0).1
      have h1 := (hjit 1).2
      linarith
    unfold selectRecipe selectBest
    simp only [List.enum_cons, List.enumFrom, List.map_cons, List.map_nil,
      List.foldl_cons, List.foldl_nil]
    rw [if_neg hnot]
    rfl
  · have hlt : scoreRecipe [occGenB d] recGenA d (jit 1)
        > scoreRecipe [occGenB d] recGenB d (jit 0) := by
      rw [hA (jit 1), hB (jit 0)]
      have h0 := (hjit 0).2
      have h1 := (hjit 1).1
      linarith
    unfold selectRecipe selectBest
    simp only [List.enum_cons, List.enumFrom, List.map_cons, List.map_nil,
      List.foldl_cons, List.foldl_nil]
    rw [if_pos hlt]
    rfl

/-- C9 witness: the selection applied at candidate date 0 with zero jitter. -/
theorem scenarioB_selects_A_witness :
    selectRecipe [recGenA, recGenB] [occGenB 0] 0 (fun _ => 0) = some 1 ∧
    selectRecipe [recGenB, recGenA] [occGenB 0] 0 (fun _ => 0) = some 1 :=
  scenarioB_selects_A 0 (fun _ => 0) (fun _ => ⟨le_refl 0, by norm_num⟩)

/-! ## C5: aggregation is a fixed point on its own output -/

/-- The accumulation depends on the previous list and the id source only
through the status/id resolved at the stream's keys: two runs that agree
there produce identical generated lists. -/
theorem foldl_addRow_congr (prev₁ prev₂ : List ShoppingItem) (f₁ f₂ : String → ℚ) :
    ∀ (cs : List (Ingredient × ℚ)) (acc : List ShoppingItem),
      (∀ c ∈ cs, statusOf prev₁ (ingKey c.1) = statusOf prev₂ (ingKey c.1) ∧
        resolveId prev₁ f₁ (ingKey c.1) = resolveId prev₂ f₂ (ingKey c.1)) →
      cs.foldl (fun a p => addRow prev₁ f₁ a p.1 p.2) acc
        = cs.foldl (fun a p => addRow prev₂ f₂ a p.1 p.2) acc := by
  intro cs
  induction cs with
  | nil => intro acc _; rfl
  | cons c tl ih =>
    intro acc hag
    rw [List.foldl_cons, List.foldl_cons]
    have hstep : addRow prev₁ f₁ acc c.1 c.2 = addRow prev₂ f₂ acc c.1 c.2 := by
      unfold addRow
      by_cases hany : (acc.any (fun it => keyOf it == ingKey c.1)) = true
      · rw [if_pos hany, if_pos hany]
      · rw [if_neg hany, if_neg hany]
        have hc := hag c (List.mem_cons_self _ _)
        unfold newRow
        rw [hc.1, hc.2]
    rw [hstep]
    exact ih _ (fun x hx => hag x (List.mem_cons_of_mem _ hx))

/-- Looking a key up in `manual ++ generated` hits the generated entry (it
sits later, and the status map keeps the last write), whose checked flag is
the one resolved from the original list. -/
theorem statusOf_append_of_exists (m gen L : List ShoppingItem) (k : String)
    (hgen : ∃ g ∈ gen, keyOf g = k)
    (hinv : ∀ g ∈ gen, g.checked = statusOf L (keyOf g)) :
    statusOf (m ++ gen) k = statusOf L k := by
  unfold statusOf
  rw [List.reverse_append, List.find?_append]
  have hsome : ∃ x, gen.reverse.find? (fun it => keyOf it == k) = some x := by
    apply Option.isSome_iff_exists.mp
    apply List.find?_isSome.mpr
    rcases hgen with ⟨g, hg, hk⟩
    exact ⟨g, List.mem_reverse.mpr hg, by simp [hk]⟩
  rcases hsome with ⟨x, hx⟩
  rw [hx, Option.or_some]
  have hxmem : x ∈ gen := List.mem_reverse.mp (List.mem_of_find?_eq_some hx)
  have hxkey : keyOf x = k := by simpa using List.find?_some hx
  show x.checked = statusOf L k
  rw [hinv x hxmem, hxkey]

/-- Same for the id map: the generated entry is non-manual and carries the id
resolved from the original list, which is reused whenever it is nonzero. -/
theorem resolveId_append_of_exists (m gen L : List ShoppingItem)
    (f₁ f₂ : String → ℚ) (k : String)
    (hgen : ∃ g ∈ gen, keyOf g = k)
    (hinv : ∀ g ∈ gen, g.is_manually_added = false ∧ g.id = resolveId L f₁ (keyOf g))
    (hne : resolveId L f₁ k ≠ 0) :
    resolveId (m ++ gen) f₂ k = resolveId L f₁ k := by
  unfold resolveId idOf
  rw [List.reverse_append, List.find?_append]
  have hsome : ∃ x, gen.reverse.find? (fun it => !it.is_manually_added && keyOf it == k)
      = some x := by
    apply Option.isSome_iff_exists.mp
    apply List.find?_isSome.mpr
    rcases hgen with ⟨g, hg, hk⟩
    exact ⟨g, List.mem_reverse.mpr hg, by simp [hk, (hinv g hg).1]⟩
  rcases hsome with ⟨x, hx⟩
  rw [hx, Option.or_some]
  have hxmem : x ∈ gen := List.mem_reverse.mp (List.mem_of_find?_eq_some hx)
  have hxkey : keyOf x = k := by
    have hpx := List.find?_some hx
    simp at hpx
    exact hpx.2
  have hxid : x.id = resolveId L f₁ k := by
    rw [(hinv x hxmem).2, hxkey]
  show (if x.id = 0 then f₂ k else x.id) = resolveId L f₁ k
  rw [hxid, if_neg hne]

theorem resolveId_ne_zero (L : List ShoppingItem) (f₁ : String → ℚ)
    (h : ∀ k, f₁ k ≠ 0) (k : String) : resolveId L f₁ k ≠ 0 := by
  unfold resolveId
  cases hio : idOf L k with
  | none => exact h k
  | some i =>
    show (if i = 0 then f₁ k else i) ≠ 0
    by_cases hi : i = 0
    · rw [if_pos hi]
      exact h k
    · rw [if_neg hi]
      exact hi

/-- Filtering the merge output for manual items recovers exactly the manual
items of the input list. -/
theorem manual_of_merge (L : List ShoppingItem) (P : List MealPlanItem)
    (R : List Recipe) (S : List String) (f₁ : String → ℚ) :
    (mergeShoppingList L P R S f₁).filter (fun it => it.is_manually_added)
      = L.filter (fun it => it.is_manually_added) := by
  show ((L.filter (fun it => it.is_manually_added)
      ++ generatedPart L P R S f₁).filter (fun it => it.is_manually_added))
    = L.filter (fun it => it.is_manually_added)
  rw [List.filter_append]
  have h2 : (generatedPart L P R S f₁).filter (fun it => it.is_manually_added) = [] := by
    apply List.filter_eq_nil_iff.mpr
    intro a ha
    rw [generatedPart_eq] at ha
    have hinv := foldl_addRow_rowInv L f₁ (planContribs R S P) []
      (fun x hx => absurd hx (List.not_mem_nil x)) a ha
    rw [hinv.1]
    exact Bool.false_ne_true
  rw [h2, List.filter_filter]
  simp

/-- C5: aggregation is a fixed point on user-owned state — re-aggregating the
output with the same plan, recipes and staples (the fresh-id source of the
first pass never returning the falsy id 0, as `Date.now() + Math.random()`
never does) reproduces the output exactly; in particular every key keeps its
id and checked flag. -/
theorem mergeShoppingList_idempotent (L : List ShoppingItem) (P : List MealPlanItem)
    (R : List Recipe) (S : List String) (f₁ f₂ : String → ℚ)
    (h : ∀ k, f₁ k ≠ 0) :
    mergeShoppingList (mergeShoppingList L P R S f₁) P R S f₂
      = mergeShoppingList L P R S f₁ := by
  have hsplit : mergeShoppingList L P R S f₁
      = L.filter (fun it => it.is_manually_added)
        ++ (planContribs R S P).foldl (fun a p => addRow L f₁ a p.1 p.2) [] := by
    show L.filter (fun it => it.is_manually_added) ++ generatedPart L P R S f₁
      = L.filter (fun it => it.is_manually_added)
        ++ (planContribs R S P).foldl (fun a p => addRow L f₁ a p.1 p.2) []
    rw [generatedPart_eq]
  have hinv := foldl_addRow_rowInv L f₁ (planContribs R S P) []
    (fun x hx => absurd hx (List.not_mem_nil x))
  have hgen : generatedPart (mergeShoppingList L P R S f₁) P R S f₂
      = generatedPart L P R S f₁ := by
    rw [generatedPart_eq, generatedPart_eq]
    apply foldl_addRow_congr
    intro c hc
    have hex : ∃ g ∈ (planContribs R S P).foldl (fun a p => addRow L f₁ a p.1 p.2) [],
        keyOf g = ingKey c.1 :=
      (foldl_addRow_exists_key L f₁ (planContribs R S P) [] (ingKey c.1)).mpr
        (Or.inr ⟨c, hc, rfl⟩)
    constructor
    · rw [hsplit]
      exact statusOf_append_of_exists _ _ L (ingKey c.1) hex
        (fun g hg => (hinv g hg).2.1)
    · rw [hsplit]
      exact resolveId_append_of_exists _ _ L f₁ f₂ (ingKey c.1) hex
        (fun g hg => ⟨(hinv g hg).1, (hinv g hg).2.2⟩)
        (resolveId_ne_zero L f₁ h (ingKey c.1))
  calc mergeShoppingList (mergeShoppingList L P R S f₁) P R S f₂
      = (mergeShoppingList L P R S f₁).filter (fun it => it.is_manually_added)
          ++ generatedPart (mergeShoppingList L P R S f₁) P R S f₂ := rfl
    _ = L.filter (fun it => it.is_manually_added) ++ generatedPart L P R S f₁ := by
        rw [manual_of_merge, hgen]
    _ = mergeShoppingList L P R S f₁ := rfl

/-- C5 witness: re-aggregating Scenario A's output is a no-op. -/
theorem mergeShoppingList_idempotent_witness :
    mergeShoppingList (mergeShoppingList [] [mealScA] [recipeScA] ["Salt"] (fun _ => 5))
        [mealScA] [recipeScA] ["Salt"] (fun _ => 7)
      = mergeShoppingList [] [mealScA] [recipeScA] ["Salt"] (fun _ => 5) :=
  mergeShoppingList_idempotent [] [mealScA] [recipeScA] ["Salt"]
    (fun _ => 5) (fun _ => 7) (fun _ => by norm_num)

end MealPlan
